import Mathlib

/-!
# Verification of the Duke3D group-archive codec and entry table

A shallow embedding of the `duke3d-group` JavaScript module: the `GroupFile`
entry model (`src/group-file.js`) and the `Group` archive with its entry-table
operations and binary codec (`Group.readFrom` / `Group.prototype.serialize`).

Bytes are modelled as `Nat` (each `< 256` on real data), strings as Lean
`String`, JavaScript `null`/non-string values via `Option`.  The string
helpers from the external `extra-utilities` package are not part of this
repository's sources; they are modelled from the specification and from the
behaviour pinned by the repository's own test-suite.
-/

namespace Duke3d

/-- JavaScript whitespace characters relevant to `String.prototype.trim` for
the inputs this module handles (space, tab, newline, vertical tab, form feed,
carriage return). -/
def wsChar (c : Char) : Bool :=
  c == ' ' || c == '\t' || c == '\n' || c == '\x0b' || c == '\x0c' || c == '\r'

/-- Trim leading and trailing whitespace from a character list
(JavaScript `String.prototype.trim`). -/
def jsTrimList (l : List Char) : List Char :=
  ((l.dropWhile wsChar).reverse.dropWhile wsChar).reverse

/-- Trim a string (JavaScript `String.prototype.trim`). -/
def jsTrim (s : String) : String := ⟨jsTrimList s.data⟩

/-- Modelled from the spec: `extra-utilities`' `trimNullTerminatedString` is
not under `src/`; per the spec it strips the NUL padding, i.e. the string is
cut at the first NUL character. -/
def trimNullList (l : List Char) : List Char :=
  l.takeWhile (fun c => c != '\x00')

/-- String version of `trimNullList`. -/
def trimNullStr (s : String) : String := ⟨trimNullList s.data⟩

/-- Modelled from the spec: `extra-utilities`' `isEmptyString(value)` —
`true` iff the value is not a string or trims to the empty string. -/
def jsIsEmptyString (v : Option String) : Bool :=
  match v with
  | none => true
  | some s => (jsTrimList s.data).isEmpty

/-- Split a name at its last `.` into a stem and an optional extension
(no `.` present gives no extension). -/
def splitExtList (l : List Char) : List Char × Option (List Char) :=
  let r := l.reverse
  let extR := r.takeWhile (fun c => c != '.')
  match r.dropWhile (fun c => c != '.') with
  | [] => (l, none)
  | _ :: stemR => (stemR.reverse, some extR.reverse)

/-- Modelled from the spec: `extra-utilities`' `truncateFileName(name, maxLength)`
is not under `src/`.  The spec's §4.1 wording ("stem to 8, extension to 3") is
contradicted by the spec's own §8 scenario (`" SURPRISE.ketchup\x00\x00\x00"`
yields `"SURP.KETCHUP"`) and by the repository's test-suite, which pins
`"SURP.KETCHUP"`, `"SLIP_SL.SLOP"` and `"FL.WHIPSNAKE"`; those outputs are
produced by trimming whitespace, keeping a name that already fits, and
otherwise keeping the extension whole and left-truncating the stem so that
the whole name fits `maxLength` (falling back to plain truncation when the
extension cannot fit). -/
def truncFileName (l : List Char) (maxLength : Nat) : List Char :=
  let t := jsTrimList l
  if t.length ≤ maxLength then t
  else
    match splitExtList t with
    | (_, none) => t.take maxLength
    | (stem, some ext) =>
      if maxLength ≤ ext.length + 1 then t.take maxLength
      else stem.take (maxLength - (ext.length + 1)) ++ ('.' :: ext)

/-- The normalization applied by the `GroupFile` name setter
(`src/group-file.js` lines 17-24) to a string input:
`truncateFileName(trimNullTerminatedString(name), 12).toUpperCase()`. -/
def normalizeNameList (l : List Char) : List Char :=
  (truncFileName (trimNullList l) 12).map Char.toUpper

/-- String version of `normalizeNameList`. -/
def normalizeName (s : String) : String := ⟨normalizeNameList s.data⟩

/-- The `name` setter of `GroupFile` (`src/group-file.js` lines 12-25):
string inputs are normalized, any other input stores `null`. -/
def setNameVal (v : Option String) : Option String :=
  match v with
  | some s => some (normalizeName s)
  | none => none

/-- The JavaScript values accepted by the `GroupFile` constructor / `data`
setter: a buffer-like value (ByteBuffer or Buffer, both copied), a string
(its raw bytes), an integer (constructor-only declared-size path), or any
other value (stored as `null`). -/
inductive JSData where
  | buf : List Nat → JSData
  | str : String → JSData
  | int : Int → JSData
  | null : JSData
deriving DecidableEq

/-- The bytes the `data` setter stores for an input value
(`src/group-file.js` lines 37-58); non-buffer, non-string values store
`null`.  String bytes are modelled as the character codes (accurate for the
ASCII data this format carries). -/
def jsDataBytes : JSData → Option (List Nat)
  | .buf bs => some bs
  | .str s => some (s.data.map Char.toNat)
  | _ => none

/-- One archive entry (`GroupFile` in `src/group-file.js`): a normalized
name (or `null`), a declared size, and an optional owned data buffer. -/
structure GroupFile where
  name : Option String
  size : Nat
  data : Option (List Nat)
deriving DecidableEq

instance : Inhabited GroupFile := ⟨⟨none, 0, none⟩⟩

/-- The `data` setter (`src/group-file.js` lines 37-58): stores a copy of
the bytes (or `null`) and recomputes `size` as the stored length (0 when
`null`). -/
def GroupFile.setData (f : GroupFile) (d : JSData) : GroupFile :=
  let bs := jsDataBytes d
  { f with data := bs, size := (bs.getD []).length }

/-- The `GroupFile` constructor (`src/group-file.js` lines 9-69): the name
runs through the name setter; an integer second argument clears `data` and
stores it as the declared size (the size setter forces negative values to
0), any other second argument runs through the data setter. -/
def GroupFile.make (name : Option String) (d : JSData) : GroupFile :=
  let base : GroupFile := { name := setNameVal name, size := 0, data := none }
  match d with
  | .int n => { base with data := none, size := if 0 ≤ n then n.toNat else 0 }
  | d => base.setData d

/-- Model of `GroupFile.prototype.isValid` (`src/group-file.js` lines 205-207):
the name is a non-empty string. -/
def GroupFile.isValidB (f : GroupFile) : Bool := !(jsIsEmptyString f.name)

/-- The static `GroupFile.isValid` (`src/group-file.js` lines 209-212) on an
entry-table element: the element is a `GroupFile` instance (`some`) and is
itself valid.  `none` stands for a non-`GroupFile` value in the table. -/
def GroupFile.isValidElem : Option GroupFile → Bool
  | some f => f.isValidB
  | none => false

/-- The entry's name defaulted to the empty string (used only where the
JavaScript code accesses `.name` on entries known to carry a string). -/
def GroupFile.nameD (f : GroupFile) : String := f.name.getD ""

/-- Model of `GroupFile.prototype.getDataSize` (`src/group-file.js` lines 101-103):
0 when `data` is `null`, else the buffer length. -/
def GroupFile.getDataSize (f : GroupFile) : Nat := (f.data.getD []).length

/-- Model of `GroupFile.prototype.getSerializedFileName` (`src/group-file.js` lines
75-83): the name followed by NUL padding up to 12 characters (names longer
than 12 are left untouched by the padding loop). -/
def GroupFile.serializedNameList (f : GroupFile) : List Char :=
  f.nameD.data ++ List.replicate (12 - f.nameD.data.length) '\x00'

/-- Model of `GroupFile.prototype.equals` (`src/group-file.js` lines 175-195): names
must be strictly equal; then either both data buffers are `null`, or both
are non-`null` with identical bytes. -/
def GroupFile.equals (a b : GroupFile) : Bool :=
  if a.name ≠ b.name then false
  else
    match a.data, b.data with
    | none, none => true
    | none, some _ => false
    | some _, none => false
    | some x, some y => x == y

/-- Case-insensitive string comparison, modelling
`localeCompare(..., { usage: "search", sensitivity: "accent" }) === 0` for
the ASCII names this format carries. -/
def ciEq (a b : String) : Bool :=
  a.data.map Char.toUpper == b.data.map Char.toUpper

/-- The archive (`Group` in the main module source): an optional trimmed
source path and the ordered entry table.  A table element is `some f` for a
`GroupFile` instance and `none` for any other (corrupt) value. -/
structure Group where
  filePath : Option String
  files : List (Option GroupFile)
deriving DecidableEq

/-- Model of `Group.HEADER_TEXT`. -/
def HEADER_TEXT : String := "KenSilverman"

/-- Model of `GroupFile.MAX_FILE_NAME_LENGTH`. -/
def MAX_FILE_NAME_LENGTH : Nat := 12

/-- Model of `Group.prototype.isValid`: every table element is a valid `GroupFile`. -/
def Group.isValidB (g : Group) : Bool := g.files.all GroupFile.isValidElem

/-- The search loop inside `Group.prototype.indexOfFile` (string branch):
skip elements that are not `GroupFile` instances or have an empty name,
return the index of the first case-insensitive name match, else -1. -/
def searchFrom (files : List (Option GroupFile)) (target : String) : Int :=
  match files with
  | [] => -1
  | e :: rest =>
    let matched :=
      match e with
      | some f => !(jsIsEmptyString f.name) && ciEq f.nameD target
      | none => false
    if matched then 0
    else
      let r := searchFrom rest target
      if r = -1 then -1 else r + 1

/-- A lookup reference as accepted by the table operations: an integer, a
name string, or a `GroupFile` instance. -/
inductive Ref where
  | int : Int → Ref
  | name : String → Ref
  | entry : GroupFile → Ref
deriving DecidableEq

/-- The string branch of `Group.prototype.indexOfFile`: -1 on an empty
table or an empty (all-whitespace) string, else a search for the trimmed
input. -/
def Group.indexOfName (g : Group) (s : String) : Int :=
  if g.files.length = 0 then -1
  else if jsIsEmptyString (some s) then -1
  else searchFrom g.files (jsTrim s)

/-- Model of `Group.prototype.indexOfFile` (main module lines 120-151): strings are
searched by trimmed name; a `GroupFile` is searched by its name (`null`
names miss); every other value — integers included — falls through to -1. -/
def Group.indexOfFile (g : Group) (r : Ref) : Int :=
  match r with
  | .name s => g.indexOfName s
  | .entry f =>
    match f.name with
    | some nm => g.indexOfName nm
    | none => -1
  | .int _ => -1

/-- Model of `Group.prototype.hasFile` on a table element (as called by `equals`):
`indexOfFile` of the element is not -1; a non-`GroupFile` element misses. -/
def Group.hasFileElem (g : Group) (e : Option GroupFile) : Bool :=
  (match e with
   | some f => g.indexOfFile (.entry f)
   | none => (-1 : Int)) ≠ -1

/-- Model of `Group.prototype.equals` (main module lines 659-675): both groups valid,
same number of entries, and every entry of the receiver found by name in the
other group. -/
def Group.equals (a b : Group) : Bool :=
  if !a.isValidB || !b.isValidB then false
  else if a.files.length ≠ b.files.length then false
  else a.files.all (fun e => b.hasFileElem e)

/-- A table element read as a `GroupFile`; only ever evaluated on `some`
elements (the JavaScript code reaches the corresponding member accesses only
after `isValid` checks). -/
def elemFile (e : Option GroupFile) : GroupFile := e.getD default

/-- The accumulation loop of `Group.prototype.getGroupFileSize` (main module
lines 98-110): `none` at the first invalid element (the code's early
`return -1`), else the sum of the entries' data sizes. -/
def groupFileSizeAux : List (Option GroupFile) → Option Nat
  | [] => some 0
  | e :: rest =>
    if GroupFile.isValidElem e then
      (groupFileSizeAux rest).map (fun n => (elemFile e).getDataSize + n)
    else none

/-- Model of `Group.prototype.getGroupFileSize`: -1 when any element is invalid, else
the total data size. -/
def Group.getGroupFileSize (g : Group) : Int :=
  match groupFileSizeAux g.files with
  | none => -1
  | some n => (n : Int)

/-- Model of `Group.prototype.getGroupSize` (main module lines 90-96): 0 for an
invalid group, else header + count field + table + total data size. -/
def Group.getGroupSize (g : Group) : Int :=
  if !g.isValidB then 0
  else (HEADER_TEXT.length : Int) + 4
    + (g.files.length * (MAX_FILE_NAME_LENGTH + 4) : Nat) + g.getGroupFileSize

/-- A string's bytes as written by `ByteBuffer.writeString` (character
codes; accurate for the ASCII strings this format carries). -/
def strToBytes (s : String) : List Nat := s.data.map Char.toNat

/-- Little-endian unsigned 32-bit encoding of a natural number (as written
by `ByteBuffer.writeUint32`, which keeps the low 32 bits). -/
def u32le (n : Nat) : List Nat :=
  [n % 256, n / 256 % 256, n / 65536 % 256, n / 16777216 % 256]

/-- One entry's table record as written by `serialize`: the NUL-padded name
followed by the little-endian `getDataSize` field. -/
def GroupFile.tableRecord (f : GroupFile) : List Nat :=
  strToBytes ⟨f.serializedNameList⟩ ++ u32le f.getDataSize

/-- Model of `Group.prototype.serialize` (main module lines 594-619): fails on an
invalid group; otherwise writes the header text, the 32-bit entry count,
each entry's table record in order, then each entry's data bytes in order
(an entry with `null` data contributes no payload bytes). -/
def Group.serialize (g : Group) : Except String (List Nat) :=
  if !g.isValidB then .error "Cannot save invalid group."
  else
    .ok (strToBytes HEADER_TEXT ++ u32le g.files.length
      ++ (g.files.map (fun e => (elemFile e).tableRecord)).flatten
      ++ (g.files.map (fun e => ((elemFile e).data).getD [])).flatten)

/-- Little-endian unsigned 32-bit read at an offset (as read by
`ByteBuffer.readUint32`; the bounds are checked by the callers before
reading, so the out-of-range default is never exercised on the code paths
modelled here). -/
def readU32At (bytes : List Nat) (off : Nat) : Nat :=
  let t := bytes.drop off
  t.getD 0 0 + 256 * t.getD 1 0 + 65536 * t.getD 2 0 + 16777216 * t.getD 3 0

/-- Model of `ByteBuffer.readString`-style read of `len` bytes at `off` as text. -/
def readStringAt (bytes : List Nat) (off len : Nat) : String :=
  ⟨((bytes.drop off).take len).map Char.ofNat⟩

/-- The table-reading loop of `Group.readFrom` (main module lines 546-574):
for each of `count` records, check and read the 12-byte NUL-padded name
(which must be non-empty after stripping the padding) and the 4-byte size,
and construct a data-less placeholder entry through the `GroupFile`
constructor. -/
def readTable (bytes : List Nat) (offset : Nat) (count : Nat) :
    Except String (List GroupFile) :=
  match count with
  | 0 => .ok []
  | k + 1 =>
    if bytes.length < offset + MAX_FILE_NAME_LENGTH then
      .error "incomplete or corrupted: missing file name"
    else
      let fileName := trimNullStr (readStringAt bytes offset MAX_FILE_NAME_LENGTH)
      if jsIsEmptyString (some fileName) then
        .error "incomplete or corrupted: file name is invalid or empty"
      else if bytes.length < offset + MAX_FILE_NAME_LENGTH + 4 then
        .error "incomplete or corrupted: missing file size value"
      else
        let fileSize := readU32At bytes (offset + MAX_FILE_NAME_LENGTH)
        match readTable bytes (offset + MAX_FILE_NAME_LENGTH + 4) k with
        | .error e => .error e
        | .ok rest => .ok (GroupFile.make (some fileName) (.int (fileSize : Int)) :: rest)

/-- The data-attachment loop of `Group.readFrom` (main module lines
576-586): each placeholder entry receives the next `size` bytes of the
payload region through the `data` setter. -/
def attachData (bytes : List Nat) : Nat → List GroupFile → List GroupFile
  | _, [] => []
  | off, f :: rest =>
    f.setData (.buf ((bytes.drop off).take f.size)) :: attachData bytes (off + f.size) rest

/-- Model of `Group.readFrom` (main module lines 498-592), from the raw bytes the
file-system collaborator supplies: validate and read the header text and the
32-bit entry count, read the table of name/size records, then attach to each
entry its slice of the payload region, which starts right after the table. -/
def Group.readFrom (filePath : String) (bytes : List Nat) : Except String Group :=
  let groupSize := bytes.length
  if groupSize < HEADER_TEXT.length then .error "is missing header text"
  else
    let headerText := readStringAt bytes 0 HEADER_TEXT.length
    if headerText ≠ HEADER_TEXT then .error "has invalid header text"
    else if groupSize < HEADER_TEXT.length + 4 then
      .error "is missing the number of files value"
    else
      let n := readU32At bytes HEADER_TEXT.length
      match readTable bytes (HEADER_TEXT.length + 4) n with
      | .error e => .error e
      | .ok files =>
        let fileDataOffset := HEADER_TEXT.length + 4 + n * (MAX_FILE_NAME_LENGTH + 4)
        .ok { filePath := some (jsTrim filePath)
              files := (attachData bytes fileDataOffset files).map some }

/-- Model of `Group.prototype.addFile` (main module lines 299-324) on an
already-constructed entry (the string branch resolves a path through the
file-system collaborator before reaching this logic): an invalid entry is
rejected; a name collision is rejected without `replace` and overwrites in
place with it; otherwise the entry is appended.  Errors model the thrown
exceptions, which leave the table untouched. -/
def Group.addFile (g : Group) (f : GroupFile) (replace : Bool) :
    Except String (Group × GroupFile) :=
  if !(GroupFile.isValidElem (some f)) then .error "Cannot add invalid group file."
  else
    let idx := g.indexOfFile (.entry f)
    if idx ≠ -1 then
      if !replace then .error "Group file with same name already present in group."
      else .ok ({ g with files := g.files.set idx.toNat (some f) }, f)
    else .ok ({ g with files := g.files ++ [some f] }, f)

/-- A sequence of `addFile` calls without the replace flag; a call that
throws leaves the group as it was and the sequence continues. -/
def addSeqNoReplace : Group → List GroupFile → Group
  | g, [] => g
  | g, f :: fs =>
    addSeqNoReplace
      (match g.addFile f false with
       | .ok p => p.1
       | .error _ => g) fs

/-- The reference resolution inside `Group.prototype.removeFiles` (main
module lines 437-442): integers are used directly, anything else goes
through `indexOfFile`. -/
def removeResolve (g : Group) (r : Ref) : Int :=
  match r with
  | .int i => i
  | _ => g.indexOfFile r

/-- The sorted-position insertion of `removeFiles` (main module lines
445-459): the new index is spliced in before the first existing index that
is ≥ it. -/
def insertSorted (idxs : List Nat) (v : Nat) : List Nat :=
  match idxs with
  | [] => [v]
  | x :: rest => if v ≤ x then v :: x :: rest else x :: insertSorted rest v

/-- The index-collection loop of `removeFiles` (main module lines 431-460):
resolve each reference, keep it only when in range and not yet collected,
and insert it in sorted position. -/
def buildIndexes (g : Group) : List Ref → List Nat → List Nat
  | [], acc => acc
  | r :: rest, acc =>
    let fileIndex := removeResolve g r
    let acc' :=
      if 0 ≤ fileIndex ∧ fileIndex < (g.files.length : Int) ∧ fileIndex.toNat ∉ acc
      then insertSorted acc fileIndex.toNat
      else acc
    buildIndexes g rest acc'

/-- The keep/skip scan of `removeFiles`' second loop (main module lines
465-476): walk the sorted collected indexes, keeping the element unless its
index is found (the scan stops early at the first collected index above it). -/
def decideKeep (idxs : List Nat) (i : Nat) : Bool :=
  match idxs with
  | [] => true
  | x :: rest => if i < x then true else if x = i then false else decideKeep rest i

/-- The rebuild loop of `removeFiles` (main module lines 462-483): the
surviving elements in their original order. -/
def keepFiles (idxs : List Nat) (files : List (Option GroupFile)) :
    List (Option GroupFile) :=
  (files.enum.filter (fun p => decideKeep idxs p.1)).map Prod.snd

/-- Model of `Group.prototype.removeFiles` (main module lines 426-486): collect the
distinct, in-range indices the references resolve to, rebuild the table
without them, and return the new group together with the number removed. -/
def Group.removeFiles (g : Group) (refs : List Ref) : Group × Nat :=
  if refs.isEmpty then (g, 0)
  else
    let idxs := buildIndexes g refs []
    ({ g with files := keepFiles idxs g.files }, idxs.length)

instance {ε α : Type} [DecidableEq ε] [DecidableEq α] : DecidableEq (Except ε α) :=
  fun a b =>
    match a, b with
    | .error e, .error e' =>
      if h : e = e' then .isTrue (by rw [h])
      else .isFalse (by intro hc; cases hc; exact h rfl)
    | .error _, .ok _ => .isFalse (by intro hc; cases hc)
    | .ok _, .error _ => .isFalse (by intro hc; cases hc)
    | .ok a, .ok b =>
      if h : a = b then .isTrue (by rw [h])
      else .isFalse (by intro hc; cases hc; exact h rfl)

/-! ## Specification-side definitions

These follow the wording of the specification's claims (not the code) and
are compared against the code model in the theorems below. -/

/-- The 8.3 short-name shape asserted by the spec: a stem of at most 8
characters, optionally followed by a dot and an extension of at most 3
characters. -/
def specShortNameForm (s : String) : Bool :=
  match splitExtList s.data with
  | (stem, none) => stem.length ≤ 8
  | (stem, some ext) => stem.length ≤ 8 && ext.length ≤ 3

/-- The spec's resolved-removal set for `removeFiles`: resolve every
reference (integers directly, anything else by lookup), keep the in-range
results, and count each index once. -/
def resolvedIndices (g : Group) (refs : List Ref) : List Nat :=
  (((refs.map (removeResolve g)).filter
      (fun i => decide (0 ≤ i ∧ i < (g.files.length : Int)))).map Int.toNat).dedup

/-! ## Well-formedness predicates for round-trippable archives

Entry names always pass through the name setter, so a real archive's names
are normalizer outputs: non-empty, at most 12 characters and NUL-free.
They are NOT always whitespace-trimmed: truncating an already-trimmed name
can leave trailing interior whitespace exposed (raw `"ABCDEFGHIJK LMN"`
normalizes to `"ABCDEFGHIJK "`, with a trailing space).  Such names are
re-normalized differently when an archive is decoded, and the trimmed-key
name lookup can never find them, so the predicates below — used as
hypotheses where a property genuinely needs them — additionally require
trim-stable (and, for the byte-level codec model, uppercase ASCII) names,
plus the entry invariant `data ≠ null ⇒ size = data.length` maintained by
the `data` setter. -/

/-- A stored entry name that decoding reproduces exactly: non-empty, at
most 12 characters, NUL-free, unchanged by whitespace-trimming or
uppercasing, ASCII.  Most normalizer outputs satisfy this, but not all:
prefix truncation can leave a trailing space. -/
def wfNameB (nm : String) : Bool :=
  !nm.data.isEmpty && nm.data.length ≤ 12
    && nm.data.all (fun c => c != '\x00' && c.toUpper == c && decide (c.toNat < 128))
    && jsTrimList nm.data == nm.data

/-- An entry that can round-trip through the codec: a well-formed name and
a present data buffer whose length matches the declared size (and fits the
32-bit size field; bytes are genuine bytes). -/
def entryReadyB (e : Option GroupFile) : Bool :=
  match e with
  | some f =>
    match f.name, f.data with
    | some nm, some bs =>
      wfNameB nm && f.size == bs.length
        && bs.all (fun b => decide (b < 256))
        && decide (bs.length < 4294967296)
    | _, _ => false
  | none => false

/-- An archive that can round-trip through the codec: every entry is ready
and the entry count fits the 32-bit count field. -/
def groupReadyB (g : Group) : Bool :=
  g.files.all entryReadyB && decide (g.files.length < 4294967296)

/-- Whether two table elements are both valid `GroupFile`s with
case-insensitively equal names (the collision `addFile` must reject). -/
def namesClash (a b : Option GroupFile) : Bool :=
  match a, b with
  | some fa, some fb => fa.isValidB && fb.isValidB && ciEq fa.nameD fb.nameD
  | _, _ => false

/-- No two elements of the table clash by name. -/
def pairwiseOkB : List (Option GroupFile) → Bool
  | [] => true
  | a :: rest => rest.all (fun b => !namesClash a b) && pairwiseOkB rest

/-- The element's name (when it is a `GroupFile` with a string name) is
whitespace-trimmed.  True of most normalizer outputs but not all of them:
truncation can expose trailing whitespace (`"ABCDEFGHIJK "`), and such a
name is never matched by the trimmed-key lookup in `indexOfFile`. -/
def nameTrimStableElem (e : Option GroupFile) : Bool :=
  match e with
  | some f =>
    match f.name with
    | some nm => jsTrimList nm.data == nm.data
    | none => true
  | none => true

/-! ## Sample data used by witnesses and counterexamples -/

/-- The spec's single-entry scenario file: `"BUBBLGUM.CON"` holding the 13
bytes of `"Where is it?!"`. -/
def fileBubblgum : GroupFile := GroupFile.make (some "BUBBLGUM.CON") (.str "Where is it?!")

/-- A second data-carrying file. -/
def fileTile : GroupFile := GroupFile.make (some "TILE1337.ART") (.str "0000010100111001")

/-- A single-entry archive with data present. -/
def groupBubblgum : Group := ⟨some "TEST.GRP", [some fileBubblgum]⟩

/-- A two-entry archive with data present. -/
def groupTwo : Group := ⟨some "TEST.GRP", [some fileTile, some fileBubblgum]⟩

/-- The test-suite's placeholder file: name `"FAKE.CON"`, declared size 28,
no data attached. -/
def filePlaceholder : GroupFile := GroupFile.make (some "FAKE.CON") (.int 28)

/-- A valid archive containing only a size-only placeholder entry. -/
def groupPlaceholder : Group := ⟨some "FAKE.GRP", [some filePlaceholder]⟩

/-- The test-suite's invalid archive: an empty-named entry, a non-`GroupFile`
value, and a valid entry. -/
def groupInvalid : Group :=
  ⟨some "INVALID",
   [some (GroupFile.make (some "") .null), none,
    some (GroupFile.make (some "FLEXTREK.WHIPSNAKE") .null)]⟩

/-- An empty archive. -/
def groupEmpty : Group := ⟨none, []⟩

/-- A valid, data-carrying entry whose normalized name keeps a trailing
space: raw `"ABCDEFGHIJK LMN"` is trimmed (no-op), has no dot, and is cut
to the first 12 characters, `"ABCDEFGHIJK "`. -/
def fileTrail : GroupFile := GroupFile.make (some "ABCDEFGHIJK LMN") (.str "x")

/-- A valid archive whose single entry has the trailing-space name. -/
def groupTrail : Group := ⟨none, [some fileTrail]⟩

/-- Archive with the same entry names as `groupTwo` but in the other order
and with different data bytes. -/
def groupTwoShuffled : Group :=
  ⟨none,
   [some (GroupFile.make (some "bubblgum.con") (.str "different bytes")),
    some (GroupFile.make (some "tile1337.art") .null)]⟩

/-! ## General lemmas -/

theorem truncFileName_length_le (l : List Char) (m : Nat) :
    (truncFileName l m).length ≤ m := by
  unfold truncFileName
  by_cases h : (jsTrimList l).length ≤ m
  · simp [h]
  · simp only [h, if_false]
    rcases hsp : splitExtList (jsTrimList l) with ⟨stem, ext?⟩
    cases ext? with
    | none =>
      simp [hsp, List.length_take]
    | some ext =>
      simp only [hsp]
      by_cases h2 : m ≤ ext.length + 1
      · simp [h2, List.length_take]
      · simp only [h2, if_false, List.length_append, List.length_take, List.length_cons]
        omega

theorem normalizeName_length_le (s : String) : (normalizeName s).length ≤ 12 := by
  show (normalizeNameList s.data).length ≤ 12
  unfold normalizeNameList
  rw [List.length_map]
  exact truncFileName_length_le (trimNullList s.data) 12

theorem make_name_eq (s : String) (d : JSData) :
    (GroupFile.make (some s) d).name = some (normalizeName s) := by
  cases d <;> rfl

/-! ## Claims -/

/-- C4: constructing an entry with the raw name
`" SURPRISE.ketchup\x00\x00\x00"` (leading space, 16-character
stem-plus-extension body, trailing NUL padding) yields the normalized name
`"SURP.KETCHUP"`. -/
theorem name_normalization_surprise_ketchup :
    (GroupFile.make (some " SURPRISE.ketchup\x00\x00\x00") .null).name
      = some "SURP.KETCHUP" := by decide

/-- C3, counterexample: the very input pinned by the spec's own truncation
scenario produces the stored name `"SURP.KETCHUP"`, whose extension
`"KETCHUP"` has 7 characters — the normalizer does not truncate the
extension to 3 characters. -/
theorem stored_name_ext_le_three_counterexample :
    (GroupFile.make (some " SURPRISE.ketchup\x00\x00\x00") .null).name
        = some "SURP.KETCHUP"
      ∧ specShortNameForm "SURP.KETCHUP" = false := by decide

/-- C3 (amended): the stored normalized name never exceeds 12 characters
in total; the extension is kept whole when (with its dot) it fits the
12-character budget, the stem being left-truncated to make room, so stored
extensions may be longer than 3 characters. -/
theorem stored_name_length_le_twelve (s : String) (d : JSData) :
    ((GroupFile.make (some s) d).name.getD "").length ≤ MAX_FILE_NAME_LENGTH := by
  rw [make_name_eq]
  exact normalizeName_length_le s

/-- C5, counterexample: on an archive with one (valid) entry, the in-range
integer reference 0 does not return 0 — `indexOfFile` has no integer
branch and returns -1 for every integer. -/
theorem indexOfFile_integer_counterexample :
    groupBubblgum.files.length = 1
      ∧ groupBubblgum.indexOfFile (.int 0) = -1 := by decide

/-- C5 (amended): `indexOfFile` returns -1 for every integer reference,
in-range or not (integer references are handled directly by `getFile`,
`removeFile` and `removeFiles`, never by `indexOfFile`), and -1 for an
empty-string reference. -/
theorem indexOfFile_integer_and_empty (g : Group) (i : Int) :
    g.indexOfFile (.int i) = -1 ∧ g.indexOfFile (.name "") = -1 := by
  refine ⟨rfl, ?_⟩
  show Group.indexOfName g "" = -1
  unfold Group.indexOfName
  by_cases h : g.files.length = 0
  · simp [h]
  · simp [h, jsIsEmptyString, jsTrimList]

theorem all_eq_false_of_mem {α : Type} {p : α → Bool} {l : List α} {e : α}
    (he : e ∈ l) (hpe : p e = false) : l.all p = false := by
  apply Bool.eq_false_iff.mpr
  intro hall
  have := List.all_eq_true.mp hall e he
  rw [hpe] at this
  exact Bool.false_ne_true this

theorem groupFileSizeAux_none {l : List (Option GroupFile)} {e : Option GroupFile}
    (he : e ∈ l) (hpe : GroupFile.isValidElem e = false) :
    groupFileSizeAux l = none := by
  induction l with
  | nil => cases he
  | cons a rest ih =>
    unfold groupFileSizeAux
    rcases List.mem_cons.mp he with h | h
    · subst h
      simp [hpe]
    · by_cases ha : GroupFile.isValidElem a
      · simp [ha, ih h]
      · simp [ha]

theorem groupFileSizeAux_some {l : List (Option GroupFile)}
    (h : ∀ e ∈ l, GroupFile.isValidElem e = true) :
    groupFileSizeAux l = some ((l.map (fun e => (elemFile e).getDataSize)).sum) := by
  induction l with
  | nil => rfl
  | cons a rest ih =>
    unfold groupFileSizeAux
    have ha := h a (List.mem_cons_self a rest)
    have hr := ih (fun e he => h e (List.mem_cons_of_mem a he))
    simp [ha, hr]

/-- C8: an archive whose table contains any element that is not a valid
entry cannot be serialized — `serialize` fails with an error — while the
numeric size queries do not raise: `getGroupFileSize` returns the sentinel
-1 and `getGroupSize` returns the sentinel 0 (no valid archive encodes to
fewer than 16 bytes, so neither is a well-formed total). -/
theorem invalid_entry_sentinels (g : Group)
    (h : ∃ e ∈ g.files, GroupFile.isValidElem e = false) :
    g.serialize = .error "Cannot save invalid group."
      ∧ g.getGroupFileSize = -1 ∧ g.getGroupSize = 0 := by
  rcases h with ⟨e, he, hpe⟩
  have hv : g.isValidB = false := all_eq_false_of_mem he hpe
  refine ⟨?_, ?_, ?_⟩
  · unfold Group.serialize
    simp [hv]
  · unfold Group.getGroupFileSize
    rw [groupFileSizeAux_none he hpe]
  · unfold Group.getGroupSize
    simp [hv]

/-- C8, witness at the test-suite's invalid archive (an empty-named entry,
a non-`GroupFile` element and a valid entry). -/
theorem invalid_entry_sentinels_witness :
    (∃ e ∈ groupInvalid.files, GroupFile.isValidElem e = false)
      ∧ groupInvalid.serialize = .error "Cannot save invalid group."
      ∧ groupInvalid.getGroupFileSize = -1 ∧ groupInvalid.getGroupSize = 0 :=
  ⟨by decide, invalid_entry_sentinels groupInvalid (by decide)⟩

/-- C7: for a valid archive in which every entry's data buffer is present,
`getGroupSize()` is `12 + 4 + n*16 + (L1 + ... + Ln)` where the `Li` are
the data buffer lengths. -/
theorem group_size_formula (g : Group) (h1 : g.isValidB = true)
    (h2 : ∀ e ∈ g.files, (elemFile e).data.isSome = true) :
    g.getGroupSize
      = ((12 + 4 + g.files.length * 16
          + (g.files.map (fun e => ((elemFile e).data.getD []).length)).sum : Nat) : Int) := by
  have hall : ∀ e ∈ g.files, GroupFile.isValidElem e = true :=
    fun e he => List.all_eq_true.mp h1 e he
  unfold Group.getGroupSize Group.getGroupFileSize
  rw [groupFileSizeAux_some hall]
  have hh : HEADER_TEXT.length = 12 := rfl
  have hm : MAX_FILE_NAME_LENGTH = 12 := rfl
  rw [hh, hm]
  have : (g.files.map (fun e => (elemFile e).getDataSize)).sum
      = (g.files.map (fun e => ((elemFile e).data.getD []).length)).sum := rfl
  rw [this]
  simp [h1]

/-- C7, witness at the single-entry archive holding 13 data bytes
(total 12 + 4 + 16 + 13 = 45). -/
theorem group_size_formula_witness :
    groupBubblgum.isValidB = true
      ∧ (∀ e ∈ groupBubblgum.files, (elemFile e).data.isSome = true)
      ∧ groupBubblgum.getGroupSize
          = ((12 + 4 + groupBubblgum.files.length * 16
              + (groupBubblgum.files.map
                  (fun e => ((elemFile e).data.getD []).length)).sum : Nat) : Int) :=
  ⟨by decide, by decide, group_size_formula groupBubblgum (by decide) (by decide)⟩

theorem serializedNameList_length {f : GroupFile} (h : f.nameD.data.length ≤ 12) :
    f.serializedNameList.length = 12 := by
  unfold GroupFile.serializedNameList
  rw [List.length_append, List.length_replicate]
  omega

theorem tableRecord_length {f : GroupFile} (h : f.nameD.data.length ≤ 12) :
    f.tableRecord.length = 16 := by
  unfold GroupFile.tableRecord strToBytes u32le
  rw [List.length_append, List.length_map, serializedNameList_length h]
  rfl

theorem flatten_drop_uniform {α : Type} (k : Nat) :
    ∀ (L : List (List α)) (post : List α), (∀ l ∈ L, l.length = k) →
      ∀ (i : Nat), i < L.length →
        (L.flatten ++ post).drop (k * i)
          = L.getD i [] ++ ((L.drop (i + 1)).flatten ++ post) := by
  intro L
  induction L with
  | nil =>
    intro post _ i hi
    cases hi
  | cons a rest ih =>
    intro post hk i hi
    cases i with
    | zero =>
      simp [List.flatten_cons, List.append_assoc]
    | succ j =>
      have ha : a.length = k := hk a (List.mem_cons_self a rest)
      have hstep : ((a :: rest).flatten ++ post) = a ++ (rest.flatten ++ post) := by
        rw [List.flatten_cons, List.append_assoc]
      rw [hstep]
      have hdd : (a ++ (rest.flatten ++ post)).drop (k * (j + 1))
          = ((a ++ (rest.flatten ++ post)).drop k).drop (k * j) := by
        rw [List.drop_drop]
        congr 1
        ring
      rw [hdd]
      have hdl : (a ++ (rest.flatten ++ post)).drop k = rest.flatten ++ post := by
        rw [← ha]
        exact List.drop_left a _
      rw [hdl]
      have hj : j < rest.length := Nat.lt_of_succ_lt_succ hi
      rw [ih post (fun l hl => hk l (List.mem_cons_of_mem a hl)) j hj]
      rfl

theorem getD_map_of_lt {α β : Type} (φ : α → β) (d : β) (d' : α) :
    ∀ (l : List α) (i : Nat), i < l.length → (l.map φ).getD i d = φ (l.getD i d') := by
  intro l
  induction l with
  | nil =>
    intro i hi
    cases hi
  | cons a rest ih =>
    intro i hi
    cases i with
    | zero => rfl
    | succ j => exact ih j (Nat.lt_of_succ_lt_succ hi)

theorem getD_mem_of_lt {α : Type} (d : α) :
    ∀ (l : List α) (i : Nat), i < l.length → l.getD i d ∈ l := by
  intro l
  induction l with
  | nil =>
    intro i hi
    cases hi
  | cons a rest ih =>
    intro i hi
    cases i with
    | zero => exact List.mem_cons_self a rest
    | succ j => exact List.mem_cons_of_mem a (ih j (Nat.lt_of_succ_lt_succ hi))

theorem serialize_ok_decomp {g : Group} {bs : List Nat}
    (hok : g.serialize = .ok bs) :
    bs = strToBytes HEADER_TEXT ++ u32le g.files.length
        ++ (g.files.map (fun e => (elemFile e).tableRecord)).flatten
        ++ (g.files.map (fun e => ((elemFile e).data).getD [])).flatten := by
  unfold Group.serialize at hok
  by_cases hv : g.isValidB = true
  · simp only [hv, Bool.not_true, Bool.false_eq_true, if_false,
      Except.ok.injEq] at hok
    exact hok.symm
  · simp only [Bool.not_eq_true] at hv
    simp only [hv, Bool.not_false, if_true] at hok
    cases hok

/-- C2, counterexample: serializing a valid archive whose single entry is
the placeholder `"FAKE.CON"` with declared size 28 and `null` data writes 0
in the size field (bytes 28..31 of the output), not the declared 28. -/
theorem size_field_counterexample :
    filePlaceholder.size = 28
      ∧ (match groupPlaceholder.serialize with
         | .ok bs => (bs.drop 28).take 4
         | .error _ => []) = u32le 0
      ∧ u32le 0 ≠ u32le 28 := by decide

/-- C2 (amended): in a serialized valid archive (entry names are at most 12
characters), entry `i`'s table record occupies bytes `16 + 16*i` onward:
first the name padded with trailing NULs to exactly 12 bytes, then the
32-bit little-endian `getDataSize()` — the entry's actual payload
contribution, which is 0 (not the declared size) when its data is `null`. -/
theorem table_record_layout (g : Group) (bs : List Nat)
    (hok : g.serialize = .ok bs)
    (hnm : ∀ e ∈ g.files, (elemFile e).nameD.data.length ≤ 12)
    (i : Nat) (hi : i < g.files.length) :
    (bs.drop (16 + 16 * i)).take 12
        = strToBytes (elemFile (g.files.getD i none)).nameD
            ++ List.replicate
                (12 - (elemFile (g.files.getD i none)).nameD.data.length) 0
      ∧ (bs.drop (16 + 16 * i + 12)).take 4
        = u32le (elemFile (g.files.getD i none)).getDataSize := by
  have hbs := serialize_ok_decomp hok
  set T := g.files.map (fun e => (elemFile e).tableRecord) with hT
  set payload := (g.files.map (fun e => ((elemFile e).data).getD [])).flatten with hp
  have hk : ∀ l ∈ T, l.length = 16 := by
    intro l hl
    rcases List.mem_map.mp hl with ⟨e, he, rfl⟩
    exact tableRecord_length (hnm e he)
  have hTlen : T.length = g.files.length := List.length_map _ _
  have hi' : i < T.length := hTlen ▸ hi
  have hpre : (strToBytes HEADER_TEXT ++ u32le g.files.length).length = 16 := by
    rw [List.length_append]
    rfl
  have hassoc : bs = (strToBytes HEADER_TEXT ++ u32le g.files.length)
      ++ (T.flatten ++ payload) := by
    rw [hbs]
    simp [List.append_assoc]
  have hdrop16 : bs.drop 16 = T.flatten ++ payload := by
    rw [hassoc, ← hpre]
    exact List.drop_left _ _
  have hdropi : bs.drop (16 + 16 * i)
      = T.getD i [] ++ ((T.drop (i + 1)).flatten ++ payload) := by
    have hsplit : bs.drop (16 + 16 * i) = (bs.drop 16).drop (16 * i) := by
      rw [List.drop_drop]
    rw [hsplit, hdrop16]
    exact flatten_drop_uniform 16 T payload hk i hi'
  have hTget : T.getD i [] = (elemFile (g.files.getD i none)).tableRecord :=
    getD_map_of_lt _ [] none g.files i hi
  set f := elemFile (g.files.getD i none) with hf
  have hfnm : f.nameD.data.length ≤ 12 := hnm _ (getD_mem_of_lt none g.files i hi)
  have hnb : strToBytes ⟨f.serializedNameList⟩
      = strToBytes f.nameD ++ List.replicate (12 - f.nameD.data.length) 0 := by
    show (f.serializedNameList).map Char.toNat
      = f.nameD.data.map Char.toNat ++ List.replicate (12 - f.nameD.data.length) 0
    unfold GroupFile.serializedNameList
    rw [List.map_append, List.map_replicate]
    rfl
  have hnblen : (strToBytes ⟨f.serializedNameList⟩).length = 12 := by
    show ((f.serializedNameList).map Char.toNat).length = 12
    rw [List.length_map]
    exact serializedNameList_length hfnm
  have hrec : bs.drop (16 + 16 * i)
      = strToBytes ⟨f.serializedNameList⟩
          ++ (u32le f.getDataSize ++ ((T.drop (i + 1)).flatten ++ payload)) := by
    rw [hdropi, hTget]
    unfold GroupFile.tableRecord
    rw [List.append_assoc]
  constructor
  · rw [hrec, ← hnb, ← hnblen]
    exact List.take_left _ _
  · have hsplit : bs.drop (16 + 16 * i + 12) = (bs.drop (16 + 16 * i)).drop 12 := by
      rw [List.drop_drop]
    rw [hsplit, hrec, ← hnblen, List.drop_left]
    have h4 : (u32le f.getDataSize).length = 4 := rfl
    rw [← h4]
    exact List.take_left _ _

/-- C2 (amended), witness: the two-entry archive of data-carrying files,
applied at index 1. -/
theorem table_record_layout_witness :
    groupTwo.serialize
        = .ok (strToBytes HEADER_TEXT ++ u32le groupTwo.files.length
            ++ (groupTwo.files.map (fun e => (elemFile e).tableRecord)).flatten
            ++ (groupTwo.files.map (fun e => ((elemFile e).data).getD [])).flatten)
      ∧ (∀ e ∈ groupTwo.files, (elemFile e).nameD.data.length ≤ 12)
      ∧ (1 : Nat) < groupTwo.files.length
      ∧ ((match groupTwo.serialize with
          | .ok bs => (bs.drop (16 + 16 * 1)).take 12
          | .error _ => [])
            = strToBytes (elemFile (groupTwo.files.getD 1 none)).nameD
                ++ List.replicate
                    (12 - (elemFile (groupTwo.files.getD 1 none)).nameD.data.length) 0) := by
  refine ⟨by decide, by decide, by decide, ?_⟩
  have hok : groupTwo.serialize
      = .ok (strToBytes HEADER_TEXT ++ u32le groupTwo.files.length
          ++ (groupTwo.files.map (fun e => (elemFile e).tableRecord)).flatten
          ++ (groupTwo.files.map (fun e => ((elemFile e).data).getD [])).flatten) := by
    decide
  have h := table_record_layout groupTwo
    (strToBytes HEADER_TEXT ++ u32le groupTwo.files.length
      ++ (groupTwo.files.map (fun e => (elemFile e).tableRecord)).flatten
      ++ (groupTwo.files.map (fun e => ((elemFile e).data).getD [])).flatten)
    hok (by decide) 1 (by decide)
  rw [hok]
  exact h.1

theorem ciEq_eq_true_iff {a b : String} :
    ciEq a b = true ↔ a.data.map Char.toUpper = b.data.map Char.toUpper := by
  unfold ciEq
  exact beq_iff_eq

theorem ciEq_symm {a b : String} (h : ciEq a b = true) : ciEq b a = true :=
  ciEq_eq_true_iff.mpr (ciEq_eq_true_iff.mp h).symm

theorem valid_elem_shape {e : Option GroupFile}
    (h : GroupFile.isValidElem e = true) :
    ∃ f nm, e = some f ∧ f.name = some nm ∧ jsIsEmptyString (some nm) = false := by
  rcases e with _ | f
  · cases h
  · have hb : (!jsIsEmptyString f.name) = true := h
    have hfe : jsIsEmptyString f.name = false := by
      cases hc : jsIsEmptyString f.name
      · rfl
      · rw [hc] at hb
        cases hb
    rcases hn : f.name with _ | nm
    · rw [hn] at hfe
      exact absurd hfe (by decide)
    · exact ⟨f, nm, rfl, hn, hn ▸ hfe⟩

theorem searchFrom_lower_bound (files : List (Option GroupFile)) (t : String) :
    searchFrom files t = -1 ∨ 0 ≤ searchFrom files t := by
  induction files with
  | nil => exact Or.inl rfl
  | cons e rest ih =>
    unfold searchFrom
    by_cases hm : (match e with
      | some f => !(jsIsEmptyString f.name) && ciEq f.nameD t
      | none => false) = true
    · rw [if_pos hm]
      exact Or.inr (by omega)
    · rw [if_neg hm]
      rcases ih with h | h
      · rw [if_pos h]
        exact Or.inl rfl
      · rw [if_neg (by omega)]
        exact Or.inr (by omega)

theorem searchFrom_ne_iff (files : List (Option GroupFile)) (t : String) :
    searchFrom files t ≠ -1
      ↔ ∃ f, some f ∈ files ∧ f.isValidB = true ∧ ciEq f.nameD t = true := by
  induction files with
  | nil =>
    simp [searchFrom]
  | cons e rest ih =>
    unfold searchFrom
    by_cases hm : (match e with
      | some f => !(jsIsEmptyString f.name) && ciEq f.nameD t
      | none => false) = true
    · rw [if_pos hm]
      constructor
      · intro _
        match e, hm with
        | some f, hm =>
          rw [Bool.and_eq_true] at hm
          exact ⟨f, List.mem_cons_self _ _, hm.1, hm.2⟩
      · intro _
        omega
    · rw [if_neg hm]
      have hstep : (if searchFrom rest t = -1 then (-1 : Int)
          else searchFrom rest t + 1) ≠ -1 ↔ searchFrom rest t ≠ -1 := by
        rcases searchFrom_lower_bound rest t with h | h
        · rw [if_pos h]
          simp [h]
        · by_cases h1 : searchFrom rest t = -1
          · rw [if_pos h1]
            simp [h1]
          · rw [if_neg h1]
            constructor
            · intro _
              exact h1
            · intro _
              omega
      rw [hstep, ih]
      constructor
      · rintro ⟨f, hf, h1, h2⟩
        exact ⟨f, List.mem_cons_of_mem e hf, h1, h2⟩
      · rintro ⟨f, hf, h1, h2⟩
        rcases List.mem_cons.mp hf with h | h
        · exfalso
          apply hm
          rw [← h]
          show (!jsIsEmptyString f.name && ciEq f.nameD t) = true
          rw [Bool.and_eq_true]
          exact ⟨h1, h2⟩
        · exact ⟨f, h, h1, h2⟩

theorem indexOfName_ne_iff_trimmed (g : Group) (s : String)
    (hs : jsIsEmptyString (some s) = false) :
    g.indexOfName s ≠ -1
      ↔ ∃ f, some f ∈ g.files ∧ f.isValidB = true
          ∧ ciEq f.nameD (jsTrim s) = true := by
  unfold Group.indexOfName
  by_cases h0 : g.files.length = 0
  · rw [if_pos h0]
    have : g.files = [] := List.length_eq_zero.mp h0
    simp [this]
  · rw [if_neg h0, hs]
    simp only [Bool.false_eq_true, if_false]
    exact searchFrom_ne_iff g.files (jsTrim s)

theorem indexOfName_ne_iff (g : Group) (s : String)
    (hs : jsIsEmptyString (some s) = false) (hts : jsTrim s = s) :
    g.indexOfName s ≠ -1
      ↔ ∃ f, some f ∈ g.files ∧ f.isValidB = true ∧ ciEq f.nameD s = true := by
  have h := indexOfName_ne_iff_trimmed g s hs
  rw [hts] at h
  exact h

theorem hasFileElem_some (g : Group) (f : GroupFile) :
    g.hasFileElem (some f) = true ↔ g.indexOfFile (.entry f) ≠ -1 := by
  unfold Group.hasFileElem
  exact decide_eq_true_iff

theorem indexOfFile_entry_of_name {f : GroupFile} {nm : String} (g : Group)
    (h : f.name = some nm) :
    g.indexOfFile (.entry f) = g.indexOfName nm := by
  show (match f.name with
    | some nm => g.indexOfName nm
    | none => (-1 : Int)) = g.indexOfName nm
  rw [h]

theorem nameD_of {f : GroupFile} {nm : String} (h : f.name = some nm) :
    f.nameD = nm := by
  unfold GroupFile.nameD
  rw [h]
  rfl

theorem nameTrimStable_of {f : GroupFile} {nm : String} (h : f.name = some nm)
    (hts : nameTrimStableElem (some f) = true) : jsTrim nm = nm := by
  have hts' : (match f.name with
    | some nm => jsTrimList nm.data == nm.data
    | none => true) = true := hts
  rw [h] at hts'
  unfold jsTrim
  rw [beq_iff_eq.mp hts']

/-- C10, counterexample: the claimed characterization fails.  A valid
archive whose single entry carries the normalizer-produced trailing-space
name `"ABCDEFGHIJK "` is not `equals` to itself, although it has the same
number of entries and every entry name of the receiver trivially occurs
case-insensitively among the other archive's entries: `indexOfFile` trims
its search key, so the stored name is never matched. -/
theorem equals_self_counterexample :
    groupTrail.isValidB = true
      ∧ (∀ e ∈ groupTrail.files, ∃ e' ∈ groupTrail.files,
          ciEq (elemFile e).nameD (elemFile e').nameD = true)
      ∧ groupTrail.equals groupTrail = false := by decide

/-- C10 (amended): archive equality compares entry names only — for valid
archives with equally many entries, `equals` is `true` exactly when every
receiver entry's whitespace-trimmed name matches case-insensitively some
stored entry name of the other archive (the lookup trims its key but not
the stored names, so a stored name with trailing whitespace never
matches); data bytes and entry order play no part. -/
theorem equals_names_only (a b : Group) (ha : a.isValidB = true)
    (hb : b.isValidB = true) (hlen : a.files.length = b.files.length) :
    a.equals b = true
      ↔ ∀ e ∈ a.files, ∃ e' ∈ b.files,
          ciEq (elemFile e').nameD (jsTrim (elemFile e).nameD) = true := by
  unfold Group.equals
  rw [ha, hb]
  simp only [Bool.not_true, Bool.or_self, Bool.false_eq_true, if_false, hlen,
    ne_eq, not_true_eq_false, ite_false]
  rw [List.all_eq_true]
  constructor
  · intro h e he
    have hv : GroupFile.isValidElem e = true := List.all_eq_true.mp ha e he
    rcases valid_elem_shape hv with ⟨f, nm, rfl, hnm, hne⟩
    have hhas := (hasFileElem_some b f).mp (h (some f) he)
    rw [indexOfFile_entry_of_name b hnm] at hhas
    rcases (indexOfName_ne_iff_trimmed b nm hne).mp hhas with ⟨f', hf', _, hci⟩
    refine ⟨some f', hf', ?_⟩
    show ciEq f'.nameD (jsTrim f.nameD) = true
    rw [nameD_of hnm]
    exact hci
  · intro h e he
    have hv : GroupFile.isValidElem e = true := List.all_eq_true.mp ha e he
    rcases valid_elem_shape hv with ⟨f, nm, rfl, hnm, hne⟩
    rcases h (some f) he with ⟨e', he', hci⟩
    have hv' : GroupFile.isValidElem e' = true := List.all_eq_true.mp hb e' he'
    rcases valid_elem_shape hv' with ⟨f', nm', rfl, hnm', hne'⟩
    show b.hasFileElem (some f) = true
    apply (hasFileElem_some b f).mpr
    rw [indexOfFile_entry_of_name b hnm]
    apply (indexOfName_ne_iff_trimmed b nm hne).mpr
    refine ⟨f', he', ?_, ?_⟩
    · show (!jsIsEmptyString f'.name) = true
      rw [hnm', hne']
      rfl
    · have hci' : ciEq f'.nameD (jsTrim f.nameD) = true := hci
      rw [nameD_of hnm] at hci'
      exact hci'

/-- C10 (amended), witness: two valid archives with the same (trimmed)
names in the other order and different data bytes are reported equal. -/
theorem equals_names_only_witness :
    groupTwo.isValidB = true ∧ groupTwoShuffled.isValidB = true
      ∧ groupTwo.files.length = groupTwoShuffled.files.length
      ∧ groupTwo.equals groupTwoShuffled = true
      ∧ groupTwo.files ≠ groupTwoShuffled.files :=
  ⟨by decide, by decide, by decide,
   (equals_names_only groupTwo groupTwoShuffled
      (by decide) (by decide) (by decide)).mpr (by decide),
   by decide⟩

theorem namesClash_elim {e : Option GroupFile} {f : GroupFile}
    (h : namesClash e (some f) = true) :
    ∃ fa, e = some fa ∧ fa.isValidB = true ∧ f.isValidB = true
      ∧ ciEq fa.nameD f.nameD = true := by
  rcases e with _ | fa
  · cases h
  · have h' : (fa.isValidB && f.isValidB && ciEq fa.nameD f.nameD) = true := h
    rw [Bool.and_eq_true, Bool.and_eq_true] at h'
    exact ⟨fa, rfl, h'.1.1, h'.1.2, h'.2⟩

theorem valid_file_shape {f : GroupFile} (h : f.isValidB = true) :
    ∃ nm, f.name = some nm ∧ jsIsEmptyString (some nm) = false := by
  rcases valid_elem_shape (e := some f) h with ⟨f', nm, heq, hnm, hne⟩
  obtain rfl : f = f' := Option.some.inj heq
  exact ⟨nm, hnm, hne⟩

theorem addFile_collision (g : Group) (f : GroupFile)
    (hts : nameTrimStableElem (some f) = true)
    (hclash : ∃ e ∈ g.files, namesClash e (some f) = true) :
    g.addFile f false
      = .error "Group file with same name already present in group." := by
  rcases hclash with ⟨e, he, hcl⟩
  rcases namesClash_elim hcl with ⟨fa, rfl, hva, hvf, hci⟩
  rcases valid_file_shape hvf with ⟨nm, hnm, hne⟩
  have htrim := nameTrimStable_of hnm hts
  have hidx : g.indexOfFile (.entry f) ≠ -1 := by
    rw [indexOfFile_entry_of_name g hnm]
    apply (indexOfName_ne_iff g nm hne htrim).mpr
    refine ⟨fa, he, hva, ?_⟩
    rw [← nameD_of hnm]
    exact hci
  have hvalid : GroupFile.isValidElem (some f) = true := hvf
  unfold Group.addFile
  simp [hvalid, hidx]

theorem addFile_no_collision (g : Group) (f : GroupFile)
    (hvf : f.isValidB = true)
    (hmiss : g.indexOfFile (.entry f) = -1) :
    g.addFile f false = .ok ({ g with files := g.files ++ [some f] }, f) := by
  have hvalid : GroupFile.isValidElem (some f) = true := hvf
  unfold Group.addFile
  simp [hvalid, hmiss]

theorem no_clash_of_miss (g : Group) (f : GroupFile)
    (hvf : f.isValidB = true) (hts : nameTrimStableElem (some f) = true)
    (hmiss : g.indexOfFile (.entry f) = -1) :
    ∀ e ∈ g.files, namesClash e (some f) = false := by
  intro e he
  rcases valid_file_shape hvf with ⟨nm, hnm, hne⟩
  have htrim := nameTrimStable_of hnm hts
  cases hc : namesClash e (some f)
  · rfl
  · exfalso
    rcases namesClash_elim hc with ⟨fa, rfl, hva, _, hci⟩
    apply absurd hmiss
    rw [indexOfFile_entry_of_name g hnm]
    apply (indexOfName_ne_iff g nm hne htrim).mpr
    refine ⟨fa, he, hva, ?_⟩
    rw [← nameD_of hnm]
    exact hci

theorem pairwiseOkB_append_one (l : List (Option GroupFile)) (x : Option GroupFile)
    (hl : pairwiseOkB l = true) (hx : ∀ e ∈ l, namesClash e x = false) :
    pairwiseOkB (l ++ [x]) = true := by
  induction l with
  | nil => rfl
  | cons a rest ih =>
    rw [List.cons_append]
    unfold pairwiseOkB at hl ⊢
    rw [Bool.and_eq_true] at hl
    rw [Bool.and_eq_true]
    constructor
    · rw [List.all_append, Bool.and_eq_true]
      refine ⟨hl.1, ?_⟩
      have hax := hx a (List.mem_cons_self a rest)
      simp [hax]
    · exact ih hl.2 (fun e he => hx e (List.mem_cons_of_mem a he))

theorem addSeq_invariant : ∀ (fs : List GroupFile) (g : Group),
    pairwiseOkB g.files = true →
    (∀ e ∈ g.files, nameTrimStableElem e = true) →
    (∀ f ∈ fs, nameTrimStableElem (some f) = true) →
    pairwiseOkB (addSeqNoReplace g fs).files = true
      ∧ ∀ e ∈ (addSeqNoReplace g fs).files, nameTrimStableElem e = true := by
  intro fs
  induction fs with
  | nil =>
    intro g hg hgs _
    exact ⟨hg, hgs⟩
  | cons f rest ih =>
    intro g hg hgs hfs
    have hstep : addSeqNoReplace g (f :: rest)
        = addSeqNoReplace (match g.addFile f false with
            | .ok p => p.1
            | .error _ => g) rest := rfl
    rw [hstep]
    by_cases hvf : f.isValidB = true
    · by_cases hmiss : g.indexOfFile (.entry f) = -1
      · rw [addFile_no_collision g f hvf hmiss]
        apply ih
        · exact pairwiseOkB_append_one _ _ hg
            (no_clash_of_miss g f hvf (hfs f (List.mem_cons_self f rest)) hmiss)
        · intro e he
          rcases List.mem_append.mp he with h | h
          · exact hgs e h
          · rcases List.mem_singleton.mp h with rfl
            exact hfs f (List.mem_cons_self f rest)
        · intro f' hf'
          exact hfs f' (List.mem_cons_of_mem f hf')
      · have hvalid : GroupFile.isValidElem (some f) = true := hvf
        have herr : g.addFile f false
            = .error "Group file with same name already present in group." := by
          unfold Group.addFile
          simp [hvalid, hmiss]
        rw [herr]
        exact ih g hg hgs (fun f' hf' => hfs f' (List.mem_cons_of_mem f hf'))
    · have hinv : GroupFile.isValidElem (some f) = false := by
        cases hc : f.isValidB
        · exact hc
        · exact absurd hc hvf
      have herr : g.addFile f false = .error "Cannot add invalid group file." := by
        unfold Group.addFile
        simp [hinv]
      rw [herr]
      exact ih g hg hgs (fun f' hf' => hfs f' (List.mem_cons_of_mem f hf'))

/-- C6 (amended): restricted to whitespace-trimmed entry names
(`nameTrimStableElem` — true of most normalizer outputs, but not of
prefix-truncated names that keep a trailing space, for which the claim
fails, see the counterexample): starting from an archive whose (valid)
entries have pairwise case-insensitively distinct names, any sequence of
`addFile` calls without the replace flag preserves that uniqueness
(failing calls change nothing and the sequence continues), and an
`addFile` without replace whose entry's name collides case-insensitively
with an existing valid entry's name always fails with the duplicate-name
error — the thrown error leaves the entry table exactly as it was. -/
theorem add_uniqueness_and_collision (g : Group) (fs : List GroupFile)
    (hg : pairwiseOkB g.files = true)
    (hgs : ∀ e ∈ g.files, nameTrimStableElem e = true)
    (hfs : ∀ f ∈ fs, nameTrimStableElem (some f) = true) :
    pairwiseOkB (addSeqNoReplace g fs).files = true
      ∧ ∀ f, nameTrimStableElem (some f) = true →
          (∃ e ∈ g.files, namesClash e (some f) = true) →
          g.addFile f false
            = .error "Group file with same name already present in group." :=
  ⟨(addSeq_invariant fs g hg hgs hfs).1,
   fun f hts hclash => addFile_collision g f hts hclash⟩

/-- C6, counterexample: the claim fails as stated.  `fileTrail` is a valid
entry whose normalizer-produced name `"ABCDEFGHIJK "` keeps a trailing
space.  Starting from the empty archive (trivially satisfying the claim's
premise), two `addFile` calls without replace both succeed — the second,
colliding one does not fail — leaving two entries with identical (hence
case-insensitively equal) names: `indexOfFile` trims its search key, so
the stored trailing-space name is never found. -/
theorem addFile_duplicate_counterexample :
    fileTrail.isValidB = true
      ∧ groupEmpty.addFile fileTrail false
          = .ok (⟨none, [some fileTrail]⟩, fileTrail)
      ∧ (⟨none, [some fileTrail]⟩ : Group).addFile fileTrail false
          = .ok (⟨none, [some fileTrail, some fileTrail]⟩, fileTrail)
      ∧ ciEq fileTrail.nameD fileTrail.nameD = true
      ∧ pairwiseOkB (addSeqNoReplace groupEmpty [fileTrail, fileTrail]).files
          = false := by decide

/-- C6 (amended), witness: adding a fresh file and a colliding duplicate
(which throws and is skipped) to the two-entry archive. -/
theorem add_uniqueness_and_collision_witness :
    pairwiseOkB groupTwo.files = true
      ∧ (∀ e ∈ groupTwo.files, nameTrimStableElem e = true)
      ∧ (∀ f ∈ [filePlaceholder, fileBubblgum], nameTrimStableElem (some f) = true)
      ∧ (pairwiseOkB (addSeqNoReplace groupTwo [filePlaceholder, fileBubblgum]).files = true
          ∧ ∀ f, nameTrimStableElem (some f) = true →
              (∃ e ∈ groupTwo.files, namesClash e (some f) = true) →
              groupTwo.addFile f false
                = .error "Group file with same name already present in group.") :=
  ⟨by decide, by decide, by decide,
   add_uniqueness_and_collision groupTwo [filePlaceholder, fileBubblgum]
     (by decide) (by decide) (by decide)⟩

theorem insertSorted_perm (l : List Nat) (v : Nat) :
    (insertSorted l v).Perm (v :: l) := by
  induction l with
  | nil => exact List.Perm.refl _
  | cons x rest ih =>
    unfold insertSorted
    by_cases h : v ≤ x
    · rw [if_pos h]
    · rw [if_neg h]
      exact (ih.cons x).trans (List.Perm.swap v x rest)

theorem insertSorted_mem (l : List Nat) (v x : Nat) :
    x ∈ insertSorted l v ↔ x = v ∨ x ∈ l := by
  rw [(insertSorted_perm l v).mem_iff, List.mem_cons]

theorem insertSorted_sorted (l : List Nat) (v : Nat)
    (hs : List.Sorted (· ≤ ·) l) :
    List.Sorted (· ≤ ·) (insertSorted l v) := by
  induction l with
  | nil => simp [insertSorted]
  | cons x rest ih =>
    rw [List.sorted_cons] at hs
    unfold insertSorted
    by_cases h : v ≤ x
    · rw [if_pos h]
      rw [List.sorted_cons]
      refine ⟨?_, List.sorted_cons.mpr hs⟩
      intro b hb
      rcases List.mem_cons.mp hb with rfl | hb
      · exact h
      · exact Nat.le_trans h (hs.1 b hb)
    · rw [if_neg h]
      rw [List.sorted_cons]
      refine ⟨?_, ih hs.2⟩
      intro b hb
      rcases (insertSorted_mem rest v b).mp hb with rfl | hb
      · omega
      · exact hs.1 b hb

theorem buildIndexes_spec (g : Group) : ∀ (refs : List Ref) (acc : List Nat),
    List.Sorted (· ≤ ·) acc → acc.Nodup →
    List.Sorted (· ≤ ·) (buildIndexes g refs acc)
      ∧ (buildIndexes g refs acc).Nodup
      ∧ ∀ x, x ∈ buildIndexes g refs acc
          ↔ (x ∈ acc ∨ x ∈ ((refs.map (removeResolve g)).filter
               (fun i => decide (0 ≤ i ∧ i < (g.files.length : Int)))).map Int.toNat) := by
  intro refs
  induction refs with
  | nil =>
    intro acc hs hn
    refine ⟨hs, hn, ?_⟩
    intro x
    simp [buildIndexes]
  | cons r rest ih =>
    intro acc hs hn
    have hstep : buildIndexes g (r :: rest) acc
        = buildIndexes g rest
            (if 0 ≤ removeResolve g r ∧ removeResolve g r < (g.files.length : Int)
                ∧ (removeResolve g r).toNat ∉ acc
             then insertSorted acc (removeResolve g r).toNat else acc) := rfl
    have hlist : ((List.map (removeResolve g) (r :: rest)).filter
          (fun i => decide (0 ≤ i ∧ i < (g.files.length : Int)))).map Int.toNat
        = if 0 ≤ removeResolve g r ∧ removeResolve g r < (g.files.length : Int)
          then (removeResolve g r).toNat
              :: ((rest.map (removeResolve g)).filter
                  (fun i => decide (0 ≤ i ∧ i < (g.files.length : Int)))).map Int.toNat
          else ((rest.map (removeResolve g)).filter
                  (fun i => decide (0 ≤ i ∧ i < (g.files.length : Int)))).map Int.toNat := by
      rw [List.map_cons, List.filter_cons]
      by_cases hc : 0 ≤ removeResolve g r ∧ removeResolve g r < (g.files.length : Int)
      · rw [if_pos hc, if_pos (decide_eq_true_iff.mpr hc), List.map_cons]
      · rw [if_neg hc, if_neg ?hdec]
        case hdec =>
          intro hcon
          exact hc (decide_eq_true_iff.mp hcon)
    by_cases hrange : 0 ≤ removeResolve g r ∧ removeResolve g r < (g.files.length : Int)
    · by_cases hfresh : (removeResolve g r).toNat ∉ acc
      · have hcond : 0 ≤ removeResolve g r ∧ removeResolve g r < (g.files.length : Int)
            ∧ (removeResolve g r).toNat ∉ acc := ⟨hrange.1, hrange.2, hfresh⟩
        rw [hstep, if_pos hcond]
        obtain ⟨ih1, ih2, ih3⟩ := ih (insertSorted acc (removeResolve g r).toNat)
          (insertSorted_sorted acc _ hs)
          (((insertSorted_perm acc _).nodup_iff).mpr (List.nodup_cons.mpr ⟨hfresh, hn⟩))
        refine ⟨ih1, ih2, ?_⟩
        intro x
        rw [ih3 x, insertSorted_mem, hlist, if_pos hrange, List.mem_cons]
        tauto
      · have hcond : ¬(0 ≤ removeResolve g r ∧ removeResolve g r < (g.files.length : Int)
            ∧ (removeResolve g r).toNat ∉ acc) := by
          intro hcon
          exact hcon.2.2 (not_not.mp (fun hx => hfresh hx))
        rw [hstep, if_neg hcond]
        obtain ⟨ih1, ih2, ih3⟩ := ih acc hs hn
        refine ⟨ih1, ih2, ?_⟩
        intro x
        rw [ih3 x, hlist, if_pos hrange, List.mem_cons]
        have hin : (removeResolve g r).toNat ∈ acc := not_not.mp hfresh
        constructor
        · tauto
        · rintro (h | rfl | h)
          · exact Or.inl h
          · exact Or.inl hin
          · exact Or.inr h
    · have hcond : ¬(0 ≤ removeResolve g r ∧ removeResolve g r < (g.files.length : Int)
          ∧ (removeResolve g r).toNat ∉ acc) := by
        intro hcon
        exact hrange ⟨hcon.1, hcon.2.1⟩
      rw [hstep, if_neg hcond]
      obtain ⟨ih1, ih2, ih3⟩ := ih acc hs hn
      refine ⟨ih1, ih2, ?_⟩
      intro x
      rw [ih3 x, hlist, if_neg hrange]

theorem decideKeep_iff (i : Nat) :
    ∀ (idxs : List Nat), List.Sorted (· ≤ ·) idxs →
      (decideKeep idxs i = true ↔ i ∉ idxs) := by
  intro idxs
  induction idxs with
  | nil =>
    intro _
    simp [decideKeep]
  | cons x rest ih =>
    intro hs
    rw [List.sorted_cons] at hs
    unfold decideKeep
    by_cases h1 : i < x
    · rw [if_pos h1]
      simp only [true_iff]
      intro hmem
      rcases List.mem_cons.mp hmem with rfl | hmem
      · omega
      · have := hs.1 i hmem
        omega
    · rw [if_neg h1]
      by_cases h2 : x = i
      · rw [if_pos h2]
        simp only [Bool.false_eq_true, false_iff, not_not]
        exact h2 ▸ List.mem_cons_self x rest
      · rw [if_neg h2]
        rw [ih hs.2]
        constructor
        · intro hni hmem
          rcases List.mem_cons.mp hmem with rfl | hmem
          · exact h2 rfl
          · exact hni hmem
        · intro hni hmem
          exact hni (List.mem_cons_of_mem x hmem)

/-- C9: `removeFiles` returns exactly the number of distinct in-range
indices its mixed integer/name/entry references resolve to (unresolvable
references and repeats are ignored), and the resulting table is the
original sequence with exactly those positions deleted, survivors keeping
their original relative order. -/
theorem removeFiles_spec (g : Group) (refs : List Ref) :
    (g.removeFiles refs).2 = (resolvedIndices g refs).length
      ∧ (g.removeFiles refs).1.files
        = (g.files.enum.filter
            (fun p => decide (p.1 ∉ resolvedIndices g refs))).map Prod.snd := by
  by_cases hempty : refs.isEmpty = true
  · have hnil : refs = [] := List.isEmpty_iff.mp hempty
    subst hnil
    unfold Group.removeFiles
    rw [if_pos hempty]
    constructor
    · rfl
    · show g.files = _
      have : (fun (p : Nat × Option GroupFile) =>
          decide (p.1 ∉ resolvedIndices g [])) = fun _ => true := by
        funext p
        simp [resolvedIndices]
      rw [this, List.filter_true, List.enum_map_snd]
  · unfold Group.removeFiles
    rw [if_neg hempty]
    obtain ⟨hsort, hnodup, hmem⟩ :=
      buildIndexes_spec g refs [] List.sorted_nil List.nodup_nil
    have hmem' : ∀ x, x ∈ buildIndexes g refs []
        ↔ x ∈ resolvedIndices g refs := by
      intro x
      rw [hmem x, resolvedIndices, List.mem_dedup]
      simp
    have htf : (buildIndexes g refs []).toFinset
        = (resolvedIndices g refs).toFinset := by
      apply Finset.ext
      intro x
      rw [List.mem_toFinset, List.mem_toFinset, hmem' x]
    constructor
    · show (buildIndexes g refs []).length = _
      calc (buildIndexes g refs []).length
          = (buildIndexes g refs []).toFinset.card :=
            (List.toFinset_card_of_nodup hnodup).symm
        _ = (resolvedIndices g refs).toFinset.card := by rw [htf]
        _ = (resolvedIndices g refs).length :=
            List.toFinset_card_of_nodup (List.nodup_dedup _)
    · show keepFiles (buildIndexes g refs []) g.files = _
      unfold keepFiles
      congr 1
      apply List.filter_congr
      intro p _
      have hiff : decideKeep (buildIndexes g refs []) p.1 = true
          ↔ p.1 ∉ resolvedIndices g refs := by
        rw [decideKeep_iff p.1 (buildIndexes g refs []) hsort]
        exact not_congr (hmem' p.1)
      cases hd : decideKeep (buildIndexes g refs []) p.1
      · rw [hd] at hiff
        have : ¬(p.1 ∉ resolvedIndices g refs) := by
          intro hx
          exact absurd (hiff.mpr hx) (by decide)
        exact (decide_eq_false this).symm
      · rw [hd] at hiff
        exact (decide_eq_true (hiff.mp rfl)).symm

theorem map_self_of {α : Type} (f : α → α) :
    ∀ (l : List α), (∀ x ∈ l, f x = x) → l.map f = l := by
  intro l
  induction l with
  | nil => intro _; rfl
  | cons a rest ih =>
    intro h
    rw [List.map_cons, h a (List.mem_cons_self a rest),
      ih (fun x hx => h x (List.mem_cons_of_mem a hx))]

theorem takeWhile_self_of_no_nul :
    ∀ (l : List Char), (∀ c ∈ l, c ≠ '\x00') →
      l.takeWhile (fun c => c != '\x00') = l := by
  intro l
  induction l with
  | nil => intro _; rfl
  | cons a rest ih =>
    intro h
    rw [List.takeWhile_cons]
    have ha : (a != '\x00') = true :=
      bne_iff_ne.mpr (h a (List.mem_cons_self a rest))
    rw [ha]
    simp only [if_true]
    rw [ih (fun c hc => h c (List.mem_cons_of_mem a hc))]

theorem trimNull_name_pad (k : Nat) :
    ∀ (cs : List Char), (∀ c ∈ cs, c ≠ '\x00') →
      trimNullList (cs ++ List.replicate k '\x00') = cs := by
  intro cs
  induction cs with
  | nil =>
    intro _
    cases k with
    | zero => rfl
    | succ m =>
      show List.takeWhile _ ('\x00' :: List.replicate m '\x00') = []
      rw [List.takeWhile_cons]
      simp
  | cons a rest ih =>
    intro h
    show List.takeWhile _ (a :: (rest ++ List.replicate k '\x00')) = a :: rest
    rw [List.takeWhile_cons]
    have ha : (a != '\x00') = true :=
      bne_iff_ne.mpr (h a (List.mem_cons_self a rest))
    rw [ha]
    simp only [if_true]
    exact congrArg (List.cons a) (ih (fun c hc => h c (List.mem_cons_of_mem a hc)))

theorem wfNameB_elim {nm : String} (h : wfNameB nm = true) :
    nm.data ≠ [] ∧ nm.data.length ≤ 12
      ∧ (∀ c ∈ nm.data, c ≠ '\x00' ∧ c.toUpper = c ∧ c.toNat < 128)
      ∧ jsTrimList nm.data = nm.data := by
  unfold wfNameB at h
  rw [Bool.and_eq_true, Bool.and_eq_true, Bool.and_eq_true] at h
  obtain ⟨⟨⟨h1, h2⟩, h3⟩, h4⟩ := h
  refine ⟨?_, ?_, ?_, ?_⟩
  · intro hc
    rw [hc] at h1
    cases h1
  · exact decide_eq_true_iff.mp h2
  · intro c hc
    have := List.all_eq_true.mp h3 c hc
    rw [Bool.and_eq_true, Bool.and_eq_true] at this
    exact ⟨bne_iff_ne.mp this.1.1, beq_iff_eq.mp this.1.2,
      decide_eq_true_iff.mp this.2⟩
  · exact beq_iff_eq.mp h4

theorem normalizeName_fix {nm : String} (h : wfNameB nm = true) :
    normalizeName nm = nm := by
  obtain ⟨hne, hlen, hchars, htrim⟩ := wfNameB_elim h
  have hlist : normalizeNameList nm.data = nm.data := by
    unfold normalizeNameList
    have h0 : trimNullList nm.data = nm.data :=
      takeWhile_self_of_no_nul nm.data (fun c hc => (hchars c hc).1)
    rw [h0]
    have h1 : truncFileName nm.data 12 = nm.data := by
      unfold truncFileName
      rw [htrim]
      rw [if_pos hlen]
    rw [h1]
    exact map_self_of Char.toUpper nm.data (fun c hc => (hchars c hc).2.1)
  show (⟨normalizeNameList nm.data⟩ : String) = nm
  rw [hlist]

theorem entryReady_elim {e : Option GroupFile} (h : entryReadyB e = true) :
    ∃ f nm bs, e = some f ∧ f.name = some nm ∧ f.data = some bs
      ∧ f.size = bs.length ∧ wfNameB nm = true ∧ bs.length < 4294967296 := by
  rcases e with _ | f
  · cases h
  · have h' : (match f.name, f.data with
      | some nm, some bs =>
        (wfNameB nm && f.size == bs.length && bs.all fun b => decide (b < 256))
          && decide (bs.length < 4294967296)
      | _, _ => false) = true := h
    rcases hn : f.name with _ | nm
    · rw [hn] at h'
      rcases f.data with _ | bs
      · cases h'
      · cases h'
    · rcases hd : f.data with _ | bs
      · rw [hn, hd] at h'
        cases h'
      · rw [hn, hd] at h'
        have h'' : ((wfNameB nm && f.size == bs.length
            && bs.all fun b => decide (b < 256))
              && decide (bs.length < 4294967296)) = true := h'
        rw [Bool.and_eq_true, Bool.and_eq_true, Bool.and_eq_true] at h''
        exact ⟨f, nm, bs, rfl, hn, hd, beq_iff_eq.mp h''.1.1.2, h''.1.1.1,
          decide_eq_true_iff.mp h''.2⟩

theorem readU32At_u32le (pre : List Nat) (n : Nat) (hn : n < 4294967296)
    (rest : List Nat) :
    readU32At (pre ++ (u32le n ++ rest)) pre.length = n := by
  unfold readU32At u32le
  rw [List.drop_left]
  simp only [List.cons_append, List.getD_cons_zero, List.getD_cons_succ]
  omega

theorem map_ofNat_toNat :
    ∀ (cs : List Char), (cs.map Char.toNat).map Char.ofNat = cs := by
  intro cs
  induction cs with
  | nil => rfl
  | cons c rest ih =>
    rw [List.map_cons, List.map_cons, Char.ofNat_toNat, ih]

theorem readStringAt_strBytes (pre : List Nat) (cs : List Char) (rest : List Nat) :
    readStringAt (pre ++ (cs.map Char.toNat ++ rest)) pre.length cs.length
      = ⟨cs⟩ := by
  unfold readStringAt
  rw [List.drop_left]
  have h1 : (cs.map Char.toNat ++ rest).take cs.length = cs.map Char.toNat := by
    have h2 : cs.length = (cs.map Char.toNat).length := (List.length_map _ _).symm
    rw [h2]
    exact List.take_left _ _
  rw [h1, map_ofNat_toNat]

theorem make_placeholder {nm : String} (hfix : normalizeName nm = nm) (sz : Nat) :
    GroupFile.make (some nm) (.int (sz : Int))
      = ⟨some nm, sz, none⟩ := by
  unfold GroupFile.make setNameVal
  simp [hfix]

theorem tableRecord_eq {f : GroupFile} {nm : String} {bs : List Nat}
    (hnm : f.name = some nm) (hbs : f.data = some bs) :
    f.tableRecord
      = (nm.data ++ List.replicate (12 - nm.data.length) '\x00').map Char.toNat
          ++ u32le bs.length := by
  unfold GroupFile.tableRecord strToBytes GroupFile.serializedNameList
    GroupFile.getDataSize
  rw [nameD_of hnm, hbs]
  rfl

theorem readTable_ok :
    ∀ (es : List (Option GroupFile)) (pre post : List Nat),
      (∀ e ∈ es, entryReadyB e = true) →
      readTable (pre ++ ((es.map (fun e => (elemFile e).tableRecord)).flatten ++ post))
        pre.length es.length
        = .ok (es.map (fun e =>
            ⟨(elemFile e).name, (elemFile e).getDataSize, none⟩)) := by
  intro es
  induction es with
  | nil =>
    intro pre post _
    rfl
  | cons e rest ih =>
    intro pre post hready
    obtain ⟨f, nm, bs, rfl, hnm, hbs, hsz, hwf, hlt⟩ :=
      entryReady_elim (hready e (List.mem_cons_self e rest))
    obtain ⟨hne, hlen12, hchars, htrim⟩ := wfNameB_elim hwf
    have hfe : elemFile (some f) = f := rfl
    set cs := nm.data ++ List.replicate (12 - nm.data.length) '\x00' with hcs
    have hcslen : cs.length = 12 := by
      rw [hcs, List.length_append, List.length_replicate]
      omega
    have hrec : (elemFile (some f)).tableRecord
        = cs.map Char.toNat ++ u32le bs.length := by
      rw [hfe]
      exact tableRecord_eq hnm hbs
    have hbytes : pre ++ ((((some f : Option GroupFile) :: rest).map
          (fun e => (elemFile e).tableRecord)).flatten ++ post)
        = pre ++ (cs.map Char.toNat
            ++ (u32le bs.length
              ++ ((rest.map (fun e => (elemFile e).tableRecord)).flatten ++ post))) := by
      rw [List.map_cons, List.flatten_cons, hrec]
      simp [List.append_assoc]
    rw [hbytes]
    set B := pre ++ (cs.map Char.toNat
        ++ (u32le bs.length
          ++ ((rest.map (fun e => (elemFile e).tableRecord)).flatten ++ post))) with hB
    have hBlen : B.length = pre.length + 16
        + ((rest.map (fun e => (elemFile e).tableRecord)).flatten ++ post).length := by
      rw [hB]
      simp only [List.length_append, List.length_map]
      rw [hcslen]
      show pre.length + (12 + (4 + _)) = _
      omega
    have hstep : readTable B pre.length ((some f :: rest).length)
        = (if B.length < pre.length + MAX_FILE_NAME_LENGTH then
            Except.error "incomplete or corrupted: missing file name"
          else
            let fileName := trimNullStr (readStringAt B pre.length MAX_FILE_NAME_LENGTH)
            if jsIsEmptyString (some fileName) then
              Except.error "incomplete or corrupted: file name is invalid or empty"
            else if B.length < pre.length + MAX_FILE_NAME_LENGTH + 4 then
              Except.error "incomplete or corrupted: missing file size value"
            else
              let fileSize := readU32At B (pre.length + MAX_FILE_NAME_LENGTH)
              match readTable B (pre.length + MAX_FILE_NAME_LENGTH + 4) rest.length with
              | .error e => .error e
              | .ok r => .ok (GroupFile.make (some fileName) (.int (fileSize : Int)) :: r)) := rfl
    rw [hstep]
    have hn1 : ¬ (B.length < pre.length + MAX_FILE_NAME_LENGTH) := by
      rw [hBlen]
      show ¬ (_ < pre.length + 12)
      omega
    rw [if_neg hn1]
    have hreadnm : readStringAt B pre.length MAX_FILE_NAME_LENGTH = ⟨cs⟩ := by
      rw [hB]
      show readStringAt _ pre.length 12 = _
      rw [← hcslen]
      have hregroup : pre ++ (cs.map Char.toNat
          ++ (u32le bs.length
            ++ ((rest.map (fun e => (elemFile e).tableRecord)).flatten ++ post)))
          = pre ++ (cs.map Char.toNat
            ++ (u32le bs.length
              ++ ((rest.map (fun e => (elemFile e).tableRecord)).flatten ++ post))) := rfl
      exact readStringAt_strBytes pre cs _
    have htrimnm : trimNullStr ⟨cs⟩ = nm := by
      unfold trimNullStr
      show (⟨trimNullList cs⟩ : String) = nm
      rw [hcs]
      rw [trimNull_name_pad _ nm.data (fun c hc => (hchars c hc).1)]
    have hnotempty : jsIsEmptyString (some nm) = false := by
      have h0 : jsIsEmptyString (some nm) = (jsTrimList nm.data).isEmpty := rfl
      rw [h0, htrim]
      cases hd : nm.data
      · exact absurd hd hne
      · rfl
    have hn2 : ¬ (B.length < pre.length + MAX_FILE_NAME_LENGTH + 4) := by
      rw [hBlen]
      show ¬ (_ < pre.length + 12 + 4)
      omega
    have hreadsz : readU32At B (pre.length + MAX_FILE_NAME_LENGTH) = bs.length := by
      have hlen' : pre.length + MAX_FILE_NAME_LENGTH
          = (pre ++ cs.map Char.toNat).length := by
        rw [List.length_append, List.length_map, hcslen]
        rfl
      rw [hB, hlen']
      have hregroup : pre ++ (cs.map Char.toNat
          ++ (u32le bs.length
            ++ ((rest.map (fun e => (elemFile e).tableRecord)).flatten ++ post)))
          = (pre ++ cs.map Char.toNat)
            ++ (u32le bs.length
              ++ ((rest.map (fun e => (elemFile e).tableRecord)).flatten ++ post)) := by
        simp [List.append_assoc]
      rw [hregroup]
      exact readU32At_u32le _ bs.length hlt _
    have hrecur : readTable B (pre.length + MAX_FILE_NAME_LENGTH + 4) rest.length
        = .ok (rest.map (fun e =>
            ⟨(elemFile e).name, (elemFile e).getDataSize, none⟩)) := by
      have hlen' : pre.length + MAX_FILE_NAME_LENGTH + 4
          = (pre ++ (cs.map Char.toNat ++ u32le bs.length)).length := by
        simp only [List.length_append, List.length_map]
        rw [hcslen]
        have h4 : (u32le bs.length).length = 4 := rfl
        rw [h4]
        show pre.length + 12 + 4 = pre.length + (12 + 4)
        omega
      have hregroup : B = (pre ++ (cs.map Char.toNat ++ u32le bs.length))
          ++ ((rest.map (fun e => (elemFile e).tableRecord)).flatten ++ post) := by
        rw [hB]
        simp [List.append_assoc]
      rw [hlen', hregroup]
      exact ih _ post (fun e he => hready e (List.mem_cons_of_mem _ he))
    have hmk : GroupFile.make (some nm) (.int (bs.length : Int))
        = ⟨some nm, bs.length, none⟩ :=
      make_placeholder (normalizeName_fix hwf) bs.length
    have hhead : (⟨(elemFile (some f)).name, (elemFile (some f)).getDataSize, none⟩
        : GroupFile) = ⟨some nm, bs.length, none⟩ := by
      rw [hfe]
      have hds : f.getDataSize = bs.length := by
        unfold GroupFile.getDataSize
        rw [hbs]
        rfl
      rw [hnm, hds]
    simp only [hreadnm, htrimnm, hnotempty, Bool.false_eq_true, if_false,
      if_neg hn2, hreadsz, hrecur, hmk, List.map_cons, hhead]

theorem attachData_ok :
    ∀ (es : List (Option GroupFile)) (pre : List Nat),
      (∀ e ∈ es, entryReadyB e = true) →
      attachData (pre ++ (es.map (fun e => ((elemFile e).data).getD [])).flatten)
          pre.length
          (es.map (fun e => ⟨(elemFile e).name, (elemFile e).getDataSize, none⟩))
        = es.map elemFile := by
  intro es
  induction es with
  | nil =>
    intro pre _
    rfl
  | cons e rest ih =>
    intro pre hready
    obtain ⟨f, nm, bs, rfl, hnm, hbs, hsz, hwf, hlt⟩ :=
      entryReady_elim (hready e (List.mem_cons_self e rest))
    have hfe : elemFile (some f) = f := rfl
    have hdataD : ((elemFile (some f)).data).getD [] = bs := by
      rw [hfe, hbs]
      rfl
    have hds : (elemFile (some f)).getDataSize = bs.length := by
      rw [hfe]
      unfold GroupFile.getDataSize
      rw [hbs]
      rfl
    have hbytes : pre ++ (((some f :: rest).map
          (fun e => ((elemFile e).data).getD [])).flatten)
        = pre ++ (bs ++ (rest.map (fun e => ((elemFile e).data).getD [])).flatten) := by
      rw [List.map_cons, List.flatten_cons, hdataD]
    rw [hbytes]
    have hmaps : ((some f :: rest).map (fun e =>
          (⟨(elemFile e).name, (elemFile e).getDataSize, none⟩ : GroupFile)))
        = (⟨some nm, bs.length, none⟩ : GroupFile)
            :: rest.map (fun e => ⟨(elemFile e).name, (elemFile e).getDataSize, none⟩) := by
      rw [List.map_cons, hfe, hnm, ← hfe, hds]
    rw [hmaps]
    set PB := pre ++ (bs ++ (rest.map (fun e => ((elemFile e).data).getD [])).flatten)
      with hPB
    have hstep : attachData PB pre.length
        ((⟨some nm, bs.length, none⟩ : GroupFile)
          :: rest.map (fun e => ⟨(elemFile e).name, (elemFile e).getDataSize, none⟩))
        = (⟨some nm, bs.length, none⟩ : GroupFile).setData
            (.buf ((PB.drop pre.length).take bs.length))
          :: attachData PB (pre.length + bs.length)
              (rest.map (fun e => ⟨(elemFile e).name, (elemFile e).getDataSize, none⟩)) := rfl
    rw [hstep]
    have hslice : (PB.drop pre.length).take bs.length = bs := by
      rw [hPB, List.drop_left]
      exact List.take_left bs ((rest.map (fun e => ((elemFile e).data).getD [])).flatten)
    rw [hslice]
    have hhead : (⟨some nm, bs.length, none⟩ : GroupFile).setData (.buf bs) = f := by
      unfold GroupFile.setData jsDataBytes
      have : f = ⟨some nm, bs.length, some bs⟩ := by
        rcases f with ⟨fn, fs, fd⟩
        simp only at hnm hbs hsz
        rw [hnm, hbs, hsz]
      rw [this]
      rfl
    rw [hhead]
    have hrest : attachData PB (pre.length + bs.length)
        (rest.map (fun e => ⟨(elemFile e).name, (elemFile e).getDataSize, none⟩))
        = rest.map elemFile := by
      have hoff : pre.length + bs.length = (pre ++ bs).length := by
        rw [List.length_append]
      have hre : PB = (pre ++ bs)
          ++ (rest.map (fun e => ((elemFile e).data).getD [])).flatten := by
        rw [hPB]
        simp [List.append_assoc]
      rw [hoff, hre]
      exact ih (pre ++ bs) (fun e he => hready e (List.mem_cons_of_mem _ he))
    rw [hrest, List.map_cons, hfe]

theorem flatten_length_uniform {α : Type} (k : Nat) :
    ∀ (L : List (List α)), (∀ l ∈ L, l.length = k) →
      L.flatten.length = k * L.length := by
  intro L
  induction L with
  | nil => intro _; rfl
  | cons a rest ih =>
    intro h
    rw [List.flatten_cons, List.length_append, h a (List.mem_cons_self a rest),
      ih (fun l hl => h l (List.mem_cons_of_mem a hl)), List.length_cons]
    ring

theorem map_elemFile_some :
    ∀ (es : List (Option GroupFile)), (∀ e ∈ es, entryReadyB e = true) →
      (es.map elemFile).map some = es := by
  intro es
  induction es with
  | nil => intro _; rfl
  | cons e rest ih =>
    intro h
    obtain ⟨f, nm, bs, rfl, _, _, _, _, _⟩ :=
      entryReady_elim (h e (List.mem_cons_self e rest))
    rw [List.map_cons, List.map_cons,
      ih (fun e he => h e (List.mem_cons_of_mem _ he))]
    rfl

theorem entryReady_valid {e : Option GroupFile} (h : entryReadyB e = true) :
    GroupFile.isValidElem e = true := by
  obtain ⟨f, nm, bs, rfl, hnm, hbs, hsz, hwf, _⟩ := entryReady_elim h
  obtain ⟨hne, _, _, htrim⟩ := wfNameB_elim hwf
  show f.isValidB = true
  unfold GroupFile.isValidB
  have h0 : jsIsEmptyString f.name = false := by
    rw [hnm]
    have h1 : jsIsEmptyString (some nm) = (jsTrimList nm.data).isEmpty := rfl
    rw [h1, htrim]
    cases hd : nm.data
    · exact absurd hd hne
    · rfl
  rw [h0]
  rfl

/-- C1, counterexample: two distinct failures of the claim as stated.
First, a valid archive containing a size-only placeholder (name
`"FAKE.CON"`, declared size 28, `null` data) does not round-trip: its size
field is written as 0, so decoding attaches an empty — but non-`null` —
data buffer, and the decoded entry is not equal (in the sense of
`GroupFile.equals`, under which `null` data only equals `null` data) to
the original.  Second, even with every data buffer present the claim
fails: the valid archive whose entry carries the normalizer-produced
trailing-space name `"ABCDEFGHIJK "` decodes to the re-normalized name
`"ABCDEFGHIJK"` (decoding runs each read name through the `GroupFile`
constructor, which trims), so its entry list is not reproduced either. -/
theorem roundtrip_counterexample :
    (groupPlaceholder.isValidB = true
      ∧ (groupPlaceholder.serialize.bind (Group.readFrom "p")).map Group.files
          = Except.ok [some (⟨some "FAKE.CON", 0, some []⟩ : GroupFile)]
      ∧ (groupPlaceholder.serialize.bind (Group.readFrom "p")).map Group.files
          ≠ Except.ok groupPlaceholder.files
      ∧ GroupFile.equals (⟨some "FAKE.CON", 0, some []⟩ : GroupFile) filePlaceholder
          = false)
    ∧ (groupTrail.isValidB = true
      ∧ (∀ e ∈ groupTrail.files, (elemFile e).data.isSome = true)
      ∧ (groupTrail.serialize.bind (Group.readFrom "p")).map Group.files
          = Except.ok [some (⟨some "ABCDEFGHIJK", 1, some [120]⟩ : GroupFile)]
      ∧ (groupTrail.serialize.bind (Group.readFrom "p")).map Group.files
          ≠ Except.ok groupTrail.files) := by decide

/-- C1 (amended): decoding the bytes produced by encoding an archive
yields exactly the original entry sequence provided every entry's data
buffer is present and every entry's stored name is reproduced verbatim by
decoding — non-empty, at most 12 characters, NUL-free, unchanged by
whitespace-trimming and by uppercasing, and ASCII (`wfNameB`, inside
`groupReadyB`).  Both restrictions are forced by the counterexample:
a `null`-data placeholder gets size field 0 and decodes with an empty
non-`null` buffer, and a name that re-normalization changes — such as the
trailing-space `"ABCDEFGHIJK "` — is altered on decode, which runs every
read name through the `GroupFile` constructor again. -/
theorem roundtrip (g : Group) (p : String) (h : groupReadyB g = true) :
    (g.serialize.bind (Group.readFrom p)).map Group.files = Except.ok g.files := by
  unfold groupReadyB at h
  rw [Bool.and_eq_true] at h
  obtain ⟨hall, hcnt⟩ := h
  have hready : ∀ e ∈ g.files, entryReadyB e = true := List.all_eq_true.mp hall
  have hcnt' : g.files.length < 4294967296 := decide_eq_true_iff.mp hcnt
  have hvalid : g.isValidB = true :=
    List.all_eq_true.mpr (fun e he => entryReady_valid (hready e he))
  set tbl := (g.files.map (fun e => (elemFile e).tableRecord)).flatten with htbl
  set pay := (g.files.map (fun e => ((elemFile e).data).getD [])).flatten with hpay
  have hser : g.serialize
      = .ok (strToBytes HEADER_TEXT ++ (u32le g.files.length ++ (tbl ++ pay))) := by
    unfold Group.serialize
    rw [hvalid]
    rfl
  rw [hser]
  show (Group.readFrom p
      (strToBytes HEADER_TEXT ++ (u32le g.files.length ++ (tbl ++ pay)))).map
        Group.files = Except.ok g.files
  set B := strToBytes HEADER_TEXT ++ (u32le g.files.length ++ (tbl ++ pay)) with hB
  have hreclen : ∀ l ∈ g.files.map (fun e => (elemFile e).tableRecord), l.length = 16 := by
    intro l hl
    rcases List.mem_map.mp hl with ⟨e, he, rfl⟩
    obtain ⟨f, nm, bs, rfl, hnm, hbs, _, hwf, _⟩ := entryReady_elim (hready e he)
    obtain ⟨_, hlen12, _, _⟩ := wfNameB_elim hwf
    apply tableRecord_length
    show (elemFile (some f)).nameD.data.length ≤ 12
    have : (elemFile (some f)).nameD = nm := nameD_of hnm
    rw [this]
    exact hlen12
  have htbllen : tbl.length = 16 * g.files.length := by
    rw [htbl]
    rw [flatten_length_uniform 16 _ hreclen, List.length_map]
  have hBlen : B.length = 12 + (4 + (16 * g.files.length + pay.length)) := by
    rw [hB]
    simp only [List.length_append, htbllen]
    rfl
  have hstep : Group.readFrom p B
      = (if B.length < HEADER_TEXT.length then
          Except.error "is missing header text"
        else if readStringAt B 0 HEADER_TEXT.length ≠ HEADER_TEXT then
          Except.error "has invalid header text"
        else if B.length < HEADER_TEXT.length + 4 then
          Except.error "is missing the number of files value"
        else
          match readTable B (HEADER_TEXT.length + 4) (readU32At B HEADER_TEXT.length) with
          | .error e => .error e
          | .ok files =>
            .ok { filePath := some (jsTrim p)
                  files := (attachData B (HEADER_TEXT.length + 4
                      + readU32At B HEADER_TEXT.length * (MAX_FILE_NAME_LENGTH + 4))
                    files).map some }) := rfl
  rw [hstep]
  have hc1 : ¬ (B.length < HEADER_TEXT.length) := by
    rw [hBlen]
    show ¬ (_ < 12)
    omega
  rw [if_neg hc1]
  have hhdr : readStringAt B 0 HEADER_TEXT.length = HEADER_TEXT := by
    rw [hB]
    exact readStringAt_strBytes ([] : List Nat) HEADER_TEXT.data
      (u32le g.files.length ++ (tbl ++ pay))
  rw [hhdr]
  simp only [ne_eq, not_true_eq_false, if_false]
  have hc2 : ¬ (B.length < HEADER_TEXT.length + 4) := by
    rw [hBlen]
    show ¬ (_ < 12 + 4)
    omega
  rw [if_neg hc2]
  have hcount : readU32At B HEADER_TEXT.length = g.files.length := by
    rw [hB]
    show readU32At (strToBytes HEADER_TEXT
        ++ (u32le g.files.length ++ (tbl ++ pay))) ((strToBytes HEADER_TEXT).length)
      = g.files.length
    exact readU32At_u32le _ _ hcnt' _
  rw [hcount]
  have htblread : readTable B (HEADER_TEXT.length + 4) g.files.length
      = .ok (g.files.map (fun e =>
          ⟨(elemFile e).name, (elemFile e).getDataSize, none⟩)) := by
    have hre : B = (strToBytes HEADER_TEXT ++ u32le g.files.length) ++ (tbl ++ pay) := by
      rw [hB]
      simp [List.append_assoc]
    have hoff : HEADER_TEXT.length + 4
        = (strToBytes HEADER_TEXT ++ u32le g.files.length).length := by
      rw [List.length_append]
      rfl
    rw [hre, hoff, htbl]
    exact readTable_ok g.files _ pay hready
  simp only [htblread]
  have hattach : attachData B (HEADER_TEXT.length + 4
        + g.files.length * (MAX_FILE_NAME_LENGTH + 4))
      (g.files.map (fun e => ⟨(elemFile e).name, (elemFile e).getDataSize, none⟩))
      = g.files.map elemFile := by
    have hre : B = ((strToBytes HEADER_TEXT ++ u32le g.files.length) ++ tbl) ++ pay := by
      rw [hB]
      simp [List.append_assoc]
    have hoff : HEADER_TEXT.length + 4 + g.files.length * (MAX_FILE_NAME_LENGTH + 4)
        = ((strToBytes HEADER_TEXT ++ u32le g.files.length) ++ tbl).length := by
      simp only [List.length_append, htbllen]
      show 12 + 4 + g.files.length * 16 = 12 + 4 + 16 * g.files.length
      ring
    rw [hre, hoff, hpay]
    exact attachData_ok g.files _ hready
  rw [hattach]
  rw [map_elemFile_some g.files hready]
  rfl

/-- C1 (amended), witness at the single-entry archive holding the 13 bytes
of `"Where is it?!"`. -/
theorem roundtrip_witness :
    groupReadyB groupBubblgum = true
      ∧ (groupBubblgum.serialize.bind (Group.readFrom "TEST.GRP")).map Group.files
          = Except.ok groupBubblgum.files :=
  ⟨by decide, roundtrip groupBubblgum "TEST.GRP" (by decide)⟩

end Duke3d
